import Mathlib

/-!
# Verification of the bmc core: optimal-exit analytics and position lifecycle

Shallow embedding of the repository's core logic:

* `computeBestSell` — the Optimal-Exit Calculator (`api/best-sell` module).
* `fetchJsonWithRetry` — the retrying HTTP helper, modelled against an
  oracle that maps each attempt number to the outcome of that fetch.
* `fetchAllMinuteCandles` — backward pagination over minute candles with
  dedup-by-timestamp (later value wins) and ascending sort; both the
  variant taking a `stopBeforeTimestamp` floor and the variant without it.
* the lifecycle engine's exit rule (`coinsToSell`), open-positions query
  (`activeHoldings`) and conditional closing update (`closeHolding`).
* the best-sell HTTP `handler`.

Modelling conventions: JavaScript numbers that the code guards with
`Number.isFinite` are modelled as `Option ℚ` / `Option Int` with `none`
standing for the non-finite case (`NaN`, `±Infinity`); prices are exact
rationals; timestamps are integers (epoch seconds, or epoch milliseconds in
the lifecycle engine).  Date parsing (`new Date(s).getTime()`) is an oracle
parameter `String → Option Int`.  Upstream HTTP traffic is an oracle from
the request index (and cursor, where one is sent) to the raw response.
-/

/-- One minute-bar of price history, as built by the fetcher:
`{ timestamp: Number(row[0]), high: Number(row[2]) }` after the finiteness
and `high > 0` filter. -/
structure Candle where
  timestamp : Int
  high : ℚ
deriving DecidableEq, Repr

/-- The populated best-sell triple.  The all-absent `nullBestSell` of the
source is modelled as `none` at every use site, so `bestSellAt`,
`bestSellPrice` and `bestPlPercent` are jointly present or jointly absent.
`bestSellAt` is kept as the candle's epoch-second timestamp (the source
renders it as an ISO string, a bijective formatting step out of scope). -/
structure BestSell where
  bestSellAt : Int
  bestSellPrice : ℚ
  bestPlPercent : ℚ
deriving DecidableEq, Repr

/-- The `afterBuyCandles.reduce((best, current) => current.high > best.high
? current : best)` step: JS `reduce` with no initial value seeds the
accumulator with the first element, so the fold runs over the tail. -/
def reduceBest (b : Candle) : List Candle → Candle
  | [] => b
  | c :: cs => reduceBest (if b.high < c.high then c else b) cs

/-- The tail of `computeBestSell` once the input guards have passed: filter
already applied, empty-check, reduce, and assembly of the result object. -/
def bestFromAfter (buyPrice : ℚ) (after : List Candle) : Option BestSell :=
  match after with
  | [] => none
  | c :: rest =>
    let best := reduceBest c rest
    some ⟨best.timestamp, best.high, (best.high - buyPrice) / buyPrice * 100⟩

/-- `computeBestSell({buyPrice, boughtAt}, candles)`.
`buyPrice : Option ℚ` is `Number(query.buyPrice)` (`none` = non-finite);
`boughtAtUnixSeconds : Option Int` is
`Math.floor(new Date(boughtAt).getTime() / 1000)` (`none` = unparseable
date, i.e. `NaN`).  Returns `none` for the source's `nullBestSell`. -/
def computeBestSell (buyPrice : Option ℚ) (boughtAtUnixSeconds : Option Int)
    (candles : List Candle) : Option BestSell :=
  match buyPrice with
  | none => none
  | some bp =>
    if bp ≤ 0 then none
    else
      match boughtAtUnixSeconds with
      | none => none
      | some t =>
        if t ≤ 0 then none
        else bestFromAfter bp (candles.filter fun c => t ≤ c.timestamp)

example :
    computeBestSell (some 1) (some 100) [⟨100, 2⟩, ⟨160, 5⟩, ⟨220, 3⟩]
      = some ⟨160, 5, 400⟩ := by
  simp [computeBestSell, bestFromAfter, reduceBest]
  norm_num

example : computeBestSell (some 1) (some 0) [⟨5, 2⟩] = none := by rfl

example : computeBestSell (some 0) (some 100) [⟨100, 2⟩] = none := by rfl

/-! ## `fetchJsonWithRetry` (retry helper)

The helper is driven by an oracle mapping the attempt number (1-based) to
what that `fetch` does: resolve with a 2xx response whose body parses
(`ok`), resolve with a non-2xx status (`httpStatus`), or reject
(`netError`, also covering a body that fails to parse).  The model returns
the overall outcome together with the number of `fetch` calls made and the
list of `sleep` durations awaited, in order. -/

/-- Outcome of one `fetch(url)` inside `fetchJsonWithRetry`; the body of a
successful response is abstracted to a `Nat` tag. -/
inductive FetchOutcome where
  | ok (body : Nat)
  | httpStatus (code : Nat)
  | netError
deriving DecidableEq, Repr

/-- Errors `fetchJsonWithRetry` can throw: the `Upstream <status>` error
built in the loop, a rethrown network rejection, or the final
`'Unknown upstream error'` fallback. -/
inductive UpstreamErr where
  | upstream (code : Nat)
  | network
  | unknown
deriving DecidableEq, Repr

/-- One iteration of the `for (let attempt = 1; attempt <= attempts; ...)`
loop of `fetchJsonWithRetry`, continuing recursively.  Note that the
`throw new Error('Upstream <status>')` raised for a non-retryable status
(or on the last attempt) sits inside the `try` block, so it is caught by
the loop's own `catch`, which records it in `lastError`, sleeps
`250 * attempt` when `attempt < attempts`, and lets the loop continue.
Returns (result, number of fetches performed, sleep durations). -/
def retryGo (oracle : Nat → FetchOutcome) (attempts : Nat) :
    Nat → Nat → Option UpstreamErr → Except UpstreamErr Nat × Nat × List Nat
  | 0, _, lastError =>
    -- `attempt > attempts`: the loop has exhausted its attempts
    (Except.error (lastError.getD UpstreamErr.unknown), 0, [])
  | fuel + 1, attempt, lastError =>
    match oracle attempt with
    | FetchOutcome.ok body => (Except.ok body, 1, [])
    | FetchOutcome.httpStatus code =>
      let retryable : Bool := code == 429 || 500 ≤ code
      if !retryable || attempt == attempts then
        -- thrown, then caught by the catch block of the same iteration
        let caughtSleeps := if attempt < attempts then [250 * attempt] else []
        let rest := retryGo oracle attempts fuel (attempt + 1)
          (some (UpstreamErr.upstream code))
        (rest.1, rest.2.1 + 1, caughtSleeps ++ rest.2.2)
      else
        let rest := retryGo oracle attempts fuel (attempt + 1) lastError
        (rest.1, rest.2.1 + 1, 250 * attempt :: rest.2.2)
    | FetchOutcome.netError =>
      let caughtSleeps := if attempt < attempts then [250 * attempt] else []
      let rest := retryGo oracle attempts fuel (attempt + 1)
        (some UpstreamErr.network)
      (rest.1, rest.2.1 + 1, caughtSleeps ++ rest.2.2)

/-- `fetchJsonWithRetry(url, attempts = 3)`, with the `fetch` behaviour per
attempt given by `oracle`.  The loop `for (attempt = 1; attempt <= attempts)`
is run with structural fuel `attempts`, so iterations carry
`attempt = 1, …, attempts` and the fuel hits zero exactly when
`attempt = attempts + 1`, the loop's exit condition. -/
def fetchJsonWithRetry (oracle : Nat → FetchOutcome) (attempts : Nat := 3) :
    Except UpstreamErr Nat × Nat × List Nat :=
  retryGo oracle attempts attempts 1 none

example :
    fetchJsonWithRetry (fun _ => FetchOutcome.httpStatus 404)
      = (Except.error (UpstreamErr.upstream 404), 3, [250, 500]) := by rfl

example :
    fetchJsonWithRetry
        (fun n => if n ≤ 2 then FetchOutcome.httpStatus 500 else FetchOutcome.ok 7)
      = (Except.ok 7, 3, [250, 500]) := by rfl

/-! ## `fetchAllMinuteCandles` (Time-Series Fetcher)

The upstream OHLCV endpoint is an oracle from the request index and the
`before_timestamp` cursor sent with that request (`none` on the first
request, where no cursor is sent) to the raw `ohlcv_list` rows of the
response.  A raw row keeps only the two consumed positions `row[0]` and
`row[2]` after `Number(...)`, with `none` for a non-finite result. -/

/-- A raw `ohlcv_list` row, reduced to the consumed fields:
`ts = Number(row[0])`, `high = Number(row[2])` (`none` = non-finite). -/
structure RawRow where
  ts : Option Int
  high : Option ℚ
deriving DecidableEq, Repr

/-- The `.map(...).filter(...)` step building `pageCandles`: keep a row only
if both numbers are finite and the high is positive. -/
def rowToCandle (r : RawRow) : Option Candle :=
  match r.ts, r.high with
  | some t, some h => if 0 < h then some ⟨t, h⟩ else none
  | _, _ => none

/-- `pageCandles` for one raw page. -/
def parsePage (rows : List RawRow) : List Candle :=
  rows.filterMap rowToCandle

/-- `Math.min(...pageCandles.map((row) => row.timestamp))`; only ever used
on a non-empty page (guarded by `pageCandles.length === 0` upstream). -/
def minTs : List Candle → Int
  | [] => 0
  | c :: cs => cs.foldl (fun m x => min m x.timestamp) c.timestamp

/-- `Map.prototype.set` on an insertion-ordered map represented as a list:
if the timestamp key is present, replace that entry's value in place,
otherwise append the new entry at the end. -/
def insertCandle : List Candle → Candle → List Candle
  | [], c => [c]
  | x :: xs, c =>
    if x.timestamp == c.timestamp then c :: xs
    else x :: insertCandle xs c

/-- The `uniqueByTimestamp` map built by inserting every collected candle in
fetch order: for each timestamp the later-fetched value wins. -/
def dedupByTimestamp (cs : List Candle) : List Candle :=
  cs.foldl insertCandle []

/-- `Array.from(uniqueByTimestamp.values()).sort((a, b) => a.timestamp -
b.timestamp)`: the ascending sort by timestamp (the map's values have
pairwise distinct timestamps, so any sorting algorithm yields the same
list as the source's `Array.prototype.sort`). -/
def sortByTimestamp (cs : List Candle) : List Candle :=
  cs.insertionSort fun a b => a.timestamp ≤ b.timestamp

/-- The postprocessing applied to all collected candles before returning. -/
def dedupSort (cs : List Candle) : List Candle :=
  sortByTimestamp (dedupByTimestamp cs)

/-- The pagination loop of `fetchAllMinuteCandles(poolAddress,
stopBeforeTimestamp)`, one constructor case per `while` iteration.
Arguments: structural fuel (`maxPages - pageCount`, since `pageCount`
increases by exactly one per completed iteration), the request index, the
current `beforeTimestamp` cursor, and the accumulated `candles`.  Returns
the accumulated candle list and the number of requests issued.
`stop = none` models a non-finite `stopBeforeTimestamp`, for which
`Number.isFinite(stopBeforeTimestamp)` disables the early exit. -/
def fetchGo (oracle : Nat → Option Int → List RawRow) (stop : Option Int) :
    Nat → Nat → Option Int → List Candle → List Candle × Nat
  | 0, _, _, acc => (acc, 0)
  | fuel + 1, n, cursor, acc =>
    let rows := oracle n cursor
    if rows.isEmpty then (acc, 1)
    else
      let pageCandles := parsePage rows
      let acc2 := acc ++ pageCandles
      if pageCandles.isEmpty then (acc2, 1)
      else
        let oldestTimestamp := minTs pageCandles
        if (match stop with
            | some s => decide (oldestTimestamp ≤ s)
            | none => false) then (acc2, 1)
        else if rows.length < 1000 then (acc2, 1)
        else
          let rest := fetchGo oracle stop fuel (n + 1)
            (some (oldestTimestamp - 60)) acc2
          (rest.1, rest.2 + 1)

/-- The candles collected by the loop of `fetchAllMinuteCandles` in
`part_000` (the variant honouring `stopBeforeTimestamp`), before
deduplication and sorting; `maxPages = 100`. -/
def collectedCandles (oracle : Nat → Option Int → List RawRow)
    (stop : Option Int) : List Candle :=
  (fetchGo oracle stop 100 0 none []).1

/-- Number of candle-page requests issued by `fetchAllMinuteCandles`. -/
def fetchRequestCount (oracle : Nat → Option Int → List RawRow)
    (stop : Option Int) : Nat :=
  (fetchGo oracle stop 100 0 none []).2

/-- `fetchAllMinuteCandles(poolAddress, stopBeforeTimestamp)` from
`part_000`: paginate, dedup by timestamp (later wins), sort ascending. -/
def fetchAllMinuteCandles (oracle : Nat → Option Int → List RawRow)
    (stop : Option Int) : List Candle :=
  dedupSort (collectedCandles oracle stop)

/-- The pagination loop of the `best-sell.js` variant of
`fetchAllMinuteCandles(poolAddress)`, which takes no `stopBeforeTimestamp`
and has no early exit; otherwise identical to `fetchGo`. -/
def fetchGoNoStop (oracle : Nat → Option Int → List RawRow) :
    Nat → Nat → Option Int → List Candle → List Candle × Nat
  | 0, _, _, acc => (acc, 0)
  | fuel + 1, n, cursor, acc =>
    let rows := oracle n cursor
    if rows.isEmpty then (acc, 1)
    else
      let pageCandles := parsePage rows
      let acc2 := acc ++ pageCandles
      if pageCandles.isEmpty then (acc2, 1)
      else
        let oldestTimestamp := minTs pageCandles
        if rows.length < 1000 then (acc2, 1)
        else
          let rest := fetchGoNoStop oracle fuel (n + 1)
            (some (oldestTimestamp - 60)) acc2
          (rest.1, rest.2 + 1)

/-- `fetchAllMinuteCandles(poolAddress)` from `best-sell.js` (no early
exit): paginate, dedup by timestamp (later wins), sort ascending. -/
def fetchAllMinuteCandlesNoStop
    (oracle : Nat → Option Int → List RawRow) : List Candle :=
  dedupSort (fetchGoNoStop oracle 100 0 none []).1

/-- The value kept for timestamp `t` out of a fetched list: the last
collected candle carrying that timestamp. -/
def lastWithTs (cs : List Candle) (t : Int) : Option Candle :=
  (cs.filter fun c => c.timestamp == t).getLast?

/-- First lookup of a timestamp key in the insertion-ordered map. -/
def findTs (cs : List Candle) (t : Int) : Option Candle :=
  cs.find? fun c => c.timestamp == t

/-! ## Position lifecycle engine (edge function, `part_001`)

A `Holding` row as the exit-evaluation pass reads it.  `buy_price` is the
stored value after `Number(h.buy_price)` (`none` = non-finite, which the
code coalesces to `0` via `|| 0`); `bought_at` is the stored string's parse
`new Date(h.bought_at).getTime()` in epoch milliseconds (`none` = `NaN`);
`sell_price` is `null`/`none` while the position is open.  The spot-price
oracle (`fetchJupiterPrices` result) maps a mint address to
`usdPrice` (`none` = missing entry or non-finite, coalesced to `0`). -/

structure Holding where
  mint_address : String
  bought_at : Option Int
  buy_price : Option ℚ
  sell_price : Option ℚ
deriving DecidableEq, Repr

/-- `sixteenHours = 16 * 60 * 60 * 1000` (milliseconds). -/
def sixteenHours : Int := 16 * 60 * 60 * 1000

/-- The exit-rule predicate inside `activeHoldings.filter(...)`:
`heldOver16Hours = Number.isFinite(boughtTime) && (now - boughtTime) >
sixteenHours`; early `return true` on it; `return false` when
`buyPrice <= 0`; otherwise `currentPrice > buyPrice * 1.5`. -/
def shouldSell (now : Int) (prices : String → Option ℚ) (h : Holding) : Bool :=
  let buyPrice : ℚ := h.buy_price.getD 0
  let heldOver16Hours : Bool :=
    match h.bought_at with
    | some boughtTime => decide (sixteenHours < now - boughtTime)
    | none => false
  if heldOver16Hours then true
  else if buyPrice ≤ 0 then false
  else decide (buyPrice * (3 / 2) < (prices h.mint_address).getD 0)

/-- The open-positions query:
`from('Holdings').select('*').is('sell_price', null)`. -/
def activeHoldings (db : List Holding) : List Holding :=
  db.filter fun h => h.sell_price.isNone

/-- `coinsToSell = activeHoldings.filter(...)`. -/
def coinsToSell (now : Int) (prices : String → Option ℚ)
    (db : List Holding) : List Holding :=
  (activeHoldings db).filter (shouldSell now prices)

/-- One closing update:
`update({ sell_price: currentPrice }).eq('mint_address', m).is('sell_price',
null)` with `currentPrice = currentPrices[m]?.usdPrice || 0`. -/
def closeHolding (prices : String → Option ℚ) (m : String)
    (db : List Holding) : List Holding :=
  db.map fun h =>
    if h.mint_address == m && h.sell_price.isNone then
      { h with sell_price := some ((prices m).getD 0) }
    else h

/-- The whole exit-evaluation pass of one engine invocation: select open
holdings, filter with the exit rule, and run every closing update (the
source runs them under `Promise.all`; each update is keyed by its own mint
address, so they are modelled as a fold in list order). -/
def lifecyclePass (now : Int) (prices : String → Option ℚ)
    (db : List Holding) : List Holding :=
  (coinsToSell now prices db).foldl
    (fun acc h => closeHolding prices h.mint_address acc) db

/-! ## The best-sell HTTP handler (`part_000`) -/

/-- A request as the handler reads it: `req.method`, and the three query
parameters after their coercions — `String(req.query.mintAddress ?? '')`
and `String(req.query.boughtAt ?? '')` (a missing parameter becomes the
empty string, the falsy value the guard tests), and
`Number(req.query.buyPrice)` (`none` = non-finite, including missing). -/
structure BestSellReq where
  method : String
  mintAddress : String
  boughtAt : String
  buyPrice : Option ℚ
deriving DecidableEq, Repr

/-- The handler's possible responses: `405 { error }`, `400 { error }`, or
a `200` envelope holding a populated or all-absent result and an optional
`warning` string. -/
inductive BestSellResp where
  | methodNotAllowed
  | badRequest
  | ok (result : Option BestSell) (warning : Option String)
deriving DecidableEq, Repr

/-- The `best-sell` handler of `part_000`.  `parse` models
`new Date(s).getTime()` rounded down to epoch seconds (`none` = `NaN`);
`upstream` models the combined outcome of `fetchTopSolanaPoolAddress` +
`fetchAllMinuteCandles` — either the minute candles or the thrown error's
message.  Any throw lands in the `catch`, which responds
`200 { ...nullBestSell, warning }`. -/
def handler (parse : String → Option Int)
    (upstream : Except String (List Candle)) (req : BestSellReq) :
    BestSellResp :=
  if req.method ≠ "GET" then BestSellResp.methodNotAllowed
  else if req.mintAddress = "" ∨ req.boughtAt = "" ∨ req.buyPrice = none then
    BestSellResp.badRequest
  else
    match upstream with
    | Except.error msg => BestSellResp.ok none (some msg)
    | Except.ok minuteCandles =>
      BestSellResp.ok
        (computeBestSell req.buyPrice (parse req.boughtAt) minuteCandles)
        none

/-! ## Theorems -/

/-- Claim C2 (code evaluated at the failing input): with every attempt
answered by HTTP 404 — a non-2xx status that is neither 429 nor ≥ 500 —
`fetchJsonWithRetry` does NOT fail immediately: the `throw` for the
non-retryable status is swallowed by the loop's own `catch`, so the helper
performs 3 fetch attempts, sleeping 250 ms and then 500 ms between them,
before finally failing with the upstream-404 error. -/
theorem fetchJsonWithRetry_404_retries_three_times :
    fetchJsonWithRetry (fun _ => FetchOutcome.httpStatus 404)
      = (Except.error (UpstreamErr.upstream 404), 3, [250, 500]) := rfl

/-- Each level of the pagination loop issues at most one request. -/
theorem fetchGo_count_le (oracle : Nat → Option Int → List RawRow)
    (stop : Option Int) :
    ∀ fuel n cursor acc, (fetchGo oracle stop fuel n cursor acc).2 ≤ fuel := by
  intro fuel
  induction fuel with
  | zero => intro n cursor acc; simp [fetchGo]
  | succ f ih =>
    intro n cursor acc
    simp only [fetchGo]
    split
    · dsimp only; omega
    · split
      · dsimp only; omega
      · split
        · dsimp only; omega
        · split
          · dsimp only; omega
          · dsimp only; exact Nat.succ_le_succ (ih _ _ _)

/-- Claim C9: for every pool (i.e. every upstream behaviour, modelled by
the oracle) and every `stopBeforeTimestamp`, `fetchAllMinuteCandles`
issues at most 100 candle-page requests; termination is witnessed by
`fetchGo` being a total function whose fuel is exactly the remaining page
budget `maxPages - pageCount` of the `while (pageCount < maxPages)` loop. -/
theorem fetchAllMinuteCandles_at_most_100_requests
    (oracle : Nat → Option Int → List RawRow) (stop : Option Int) :
    fetchRequestCount oracle stop ≤ 100 :=
  fetchGo_count_le oracle stop 100 0 none []

/-- The exit-rule predicate, characterised for a holding whose `bought_at`
parses (`boughtTime` finite). -/
theorem shouldSell_iff_of_parseable (now : Int) (prices : String → Option ℚ)
    (h : Holding) (bt : Int) (hbt : h.bought_at = some bt) :
    shouldSell now prices h = true ↔
      (sixteenHours < now - bt ∨
        (0 < h.buy_price.getD 0 ∧
          h.buy_price.getD 0 * (3 / 2) < (prices h.mint_address).getD 0)) := by
  simp only [shouldSell, hbt]
  split_ifs with h16 hbp
  · simp only [decide_eq_true_eq] at h16
    simp [h16]
  · simp only [decide_eq_true_eq] at h16
    constructor
    · intro hfalse
      exact absurd hfalse (by simp)
    · rintro (hc | ⟨h0, _⟩)
      · exact absurd hc h16
      · exact absurd hbp (not_le.mpr h0)
  · simp only [decide_eq_true_eq] at h16 ⊢
    constructor
    · intro hpx
      exact Or.inr ⟨lt_of_not_le hbp, hpx⟩
    · rintro (hc | ⟨h0, hpx⟩)
      · exact absurd hc h16
      · exact hpx

/-- Claim C5: an open holding with a parseable `bought_at` is selected for
closing by the lifecycle engine's exit evaluation if and only if the
holding period strictly exceeds 16 hours (this fires even when the buy
price is 0) or the buy price is positive and the current spot price is
strictly greater than 1.5 times the buy price.  In particular the rule
does not fire at exactly 1.5× (strict inequality), nor via the price
trigger when the buy price is 0. -/
theorem coinsToSell_exit_rule_iff (now : Int) (prices : String → Option ℚ)
    (db : List Holding) (h : Holding) (bt : Int)
    (hbt : h.bought_at = some bt) :
    h ∈ coinsToSell now prices db ↔
      h ∈ db ∧ h.sell_price = none ∧
        (sixteenHours < now - bt ∨
          (0 < h.buy_price.getD 0 ∧
            h.buy_price.getD 0 * (3 / 2) < (prices h.mint_address).getD 0)) := by
  rw [coinsToSell, activeHoldings, List.mem_filter, List.mem_filter,
    shouldSell_iff_of_parseable now prices h bt hbt]
  simp [Option.isNone_iff_eq_none, and_assoc]

/-- Claim C5 witness: a holding bought 17 hours ago with buy price 0 (failed
price lookup at open time) is selected by the exit rule via the
holding-period trigger alone. -/
theorem coinsToSell_exit_rule_iff_witness :
    let h : Holding := ⟨"mintA", some 0, some 0, none⟩
    h ∈ coinsToSell (17 * 60 * 60 * 1000) (fun _ => none) [h] := by
  intro h
  exact (coinsToSell_exit_rule_iff (17 * 60 * 60 * 1000) (fun _ => none)
    [h] h 0 rfl).mpr ⟨List.mem_singleton.mpr rfl, rfl, Or.inl (by norm_num [sixteenHours])⟩

/-- Claim C10: an open holding whose `bought_at` does not parse
(`new Date(...).getTime()` is `NaN`) never triggers the 16-hour rule,
however large `now` is; it is selected for closing exactly when its buy
price is positive and the current spot price strictly exceeds 1.5 times
the buy price. -/
theorem coinsToSell_unparseable_bought_at_iff (now : Int)
    (prices : String → Option ℚ) (db : List Holding) (h : Holding)
    (hbt : h.bought_at = none) :
    h ∈ coinsToSell now prices db ↔
      h ∈ db ∧ h.sell_price = none ∧
        0 < h.buy_price.getD 0 ∧
        h.buy_price.getD 0 * (3 / 2) < (prices h.mint_address).getD 0 := by
  have hrule : shouldSell now prices h = true ↔
      (0 < h.buy_price.getD 0 ∧
        h.buy_price.getD 0 * (3 / 2) < (prices h.mint_address).getD 0) := by
    simp only [shouldSell, hbt]
    rw [if_neg (fun hc => Bool.noConfusion hc)]
    split_ifs with hbp
    · constructor
      · intro hfalse
        exact absurd hfalse (by simp)
      · rintro ⟨h0, _⟩
        exact absurd hbp (not_le.mpr h0)
    · simp only [decide_eq_true_eq]
      constructor
      · intro hpx
        exact ⟨lt_of_not_le hbp, hpx⟩
      · rintro ⟨_, hpx⟩
        exact hpx
  rw [coinsToSell, activeHoldings, List.mem_filter, List.mem_filter, hrule]
  simp [Option.isNone_iff_eq_none, and_assoc]

/-- Claim C10 witness: a holding whose `bought_at` failed to parse, opened
at buy price 1, is not selected when the spot price is exactly 1.5, and is
selected at spot price 2. -/
theorem coinsToSell_unparseable_bought_at_iff_witness :
    let h : Holding := ⟨"mintB", none, some 1, none⟩
    h ∉ coinsToSell 0 (fun _ => some (3 / 2)) [h] ∧
      h ∈ coinsToSell 0 (fun _ => some 2) [h] := by
  intro h
  constructor
  · intro hmem
    have := (coinsToSell_unparseable_bought_at_iff 0 (fun _ => some (3 / 2))
      [h] h rfl).mp hmem
    norm_num at this
  · exact (coinsToSell_unparseable_bought_at_iff 0 (fun _ => some 2)
      [h] h rfl).mpr ⟨List.mem_singleton.mpr rfl, rfl, by norm_num, by norm_num⟩

/-- A closing update leaves every row whose `sell_price` is already set
untouched: the update is conditioned on `sell_price` still being null. -/
theorem closeHolding_get?_of_closed (prices : String → Option ℚ) (m : String)
    (db : List Holding) (i : Nat) (h0 : Holding) (p : ℚ)
    (hget : db.get? i = some h0) (hclosed : h0.sell_price = some p) :
    (closeHolding prices m db).get? i = some h0 := by
  rw [closeHolding, List.get?_map, hget]
  simp [hclosed]

/-- Folding any sequence of closing updates over the store leaves an
already-closed row untouched. -/
theorem foldl_closeHolding_get?_of_closed (prices : String → Option ℚ)
    (l : List Holding) (i : Nat) (h0 : Holding) (p : ℚ)
    (hclosed : h0.sell_price = some p) :
    ∀ db : List Holding, db.get? i = some h0 →
      (l.foldl (fun acc h => closeHolding prices h.mint_address acc) db).get? i
        = some h0 := by
  induction l with
  | nil => intro db hget; simpa using hget
  | cons x xs ih =>
    intro db hget
    exact ih _ (closeHolding_get?_of_closed prices x.mint_address db i h0 p
      hget hclosed)

/-- Claim C6: a position once closed (`sell_price` set) is never selected
again by the open-positions query (`activeHoldings` filters on
`sell_price` null) and is never re-closed by a later lifecycle pass: the
pass leaves the row (at its position `i` in the store) entirely
unchanged, since each closing update is conditioned on `sell_price` still
being null.  Hence a position's OPEN → CLOSED transition happens at most
once. -/
theorem closed_position_never_reclosed (now : Int)
    (prices : String → Option ℚ) (db : List Holding) (i : Nat)
    (h0 : Holding) (p : ℚ) (hget : db.get? i = some h0)
    (hclosed : h0.sell_price = some p) :
    h0 ∉ activeHoldings db ∧
      (lifecyclePass now prices db).get? i = some h0 := by
  constructor
  · intro hmem
    rw [activeHoldings, List.mem_filter] at hmem
    rw [hclosed] at hmem
    simp at hmem
  · exact foldl_closeHolding_get?_of_closed prices _ i h0 p hclosed db hget

/-- Claim C6 witness: in a store holding one closed and one open position,
a lifecycle pass whose exit rule fires for everything still leaves the
closed row exactly as it was. -/
theorem closed_position_never_reclosed_witness :
    let closedRow : Holding := ⟨"mintC", some 0, some 1, some 5⟩
    closedRow ∉ activeHoldings [closedRow, ⟨"mintD", some 0, some 1, none⟩] ∧
      (lifecyclePass (17 * 60 * 60 * 1000) (fun _ => some 9)
          [closedRow, ⟨"mintD", some 0, some 1, none⟩]).get? 0
        = some closedRow := by
  intro closedRow
  exact closed_position_never_reclosed (17 * 60 * 60 * 1000) (fun _ => some 9)
    [closedRow, ⟨"mintD", some 0, some 1, none⟩] 0 closedRow 5 rfl rfl

/-- Claim C7: the best-sell endpoint responds with the method-not-allowed
rejection exactly on non-GET requests; with the bad-request rejection
exactly on a GET whose `mintAddress` or `boughtAt` is missing (empty after
coercion) or whose `buyPrice` is non-finite; and in every other case —
upstream failure included — with a 200 success envelope, the upstream
failure case carrying the all-absent result plus the error's message as
the warning, never a hard failure status. -/
theorem handler_response_cases (parse : String → Option Int)
    (upstream : Except String (List Candle)) (req : BestSellReq) :
    (handler parse upstream req = BestSellResp.methodNotAllowed ↔
      req.method ≠ "GET") ∧
    (handler parse upstream req = BestSellResp.badRequest ↔
      (req.method = "GET" ∧
        (req.mintAddress = "" ∨ req.boughtAt = "" ∨ req.buyPrice = none))) ∧
    (req.method = "GET" → req.mintAddress ≠ "" → req.boughtAt ≠ "" →
      req.buyPrice ≠ none →
      ∃ result warning,
        handler parse upstream req = BestSellResp.ok result warning ∧
        ∀ msg, upstream = Except.error msg →
          result = none ∧ warning = some msg) := by
  refine ⟨?_, ?_, ?_⟩
  · rw [handler.eq_def]
    split_ifs with hm hb
    · simp [hm]
    · simp [hm, hb]
    · cases upstream <;> simp [hm]
  · rw [handler.eq_def]
    split_ifs with hm hb
    · simp [hm]
    · simp [hb, not_not.mp hm]
    · cases upstream <;> simp [hm, hb]
  · intro hm ha hb hp
    rw [handler.eq_def, if_neg (by simp [hm]), if_neg (by simp [ha, hb, hp])]
    cases upstream with
    | error msg => exact ⟨none, some msg, rfl, fun m hm2 => by
        injection hm2 with h3
        exact ⟨rfl, by rw [h3]⟩⟩
    | ok candles =>
      exact ⟨computeBestSell req.buyPrice (parse req.boughtAt) candles, none,
        rfl, fun m hm2 => by exact Except.noConfusion hm2⟩

/-- Claim C7 witness: a well-formed GET whose upstream candle retrieval
fails is answered with the 200 envelope carrying the absent result and the
failure message as warning. -/
theorem handler_response_cases_witness :
    handler (fun _ => some 100) (Except.error "Upstream 502 for url")
        ⟨"GET", "mint", "2024-01-01", some 1⟩
      = BestSellResp.ok none (some "Upstream 502 for url") := by
  obtain ⟨-, -, h3⟩ := handler_response_cases (fun _ => some 100)
    (Except.error "Upstream 502 for url") ⟨"GET", "mint", "2024-01-01", some 1⟩
  obtain ⟨result, warning, heq, himp⟩ :=
    h3 rfl (by simp) (by simp) (by simp)
  obtain ⟨hr, hw⟩ := himp "Upstream 502 for url" rfl
  rw [heq, hr, hw]

/-- Claim C3: `computeBestSell` returns the all-absent result exactly when
the buy price is not a finite value > 0 (`none`, i.e. non-finite, or
≤ 0), or `boughtAt` does not parse to a valid instant (`none`, i.e. `NaN`,
or a non-positive epoch second), or no candle's timestamp is at or after
the purchase instant; being a Lean function of its three inputs, it is
total and pure, so in every other case it returns the populated result. -/
theorem computeBestSell_none_iff (buyPrice : Option ℚ)
    (boughtAtUnixSeconds : Option Int) (candles : List Candle) :
    computeBestSell buyPrice boughtAtUnixSeconds candles = none ↔
      ((∀ bp, buyPrice = some bp → bp ≤ 0) ∨
        (∀ t, boughtAtUnixSeconds = some t → t ≤ 0) ∨
        (∃ t, boughtAtUnixSeconds = some t ∧
          candles.filter (fun c => t ≤ c.timestamp) = [])) := by
  cases buyPrice with
  | none => simp [computeBestSell]
  | some bp =>
    cases boughtAtUnixSeconds with
    | none =>
      simp only [computeBestSell]
      split_ifs with hbp
      · simp [hbp]
      · simp [hbp, lt_of_not_le hbp]
    | some t =>
      simp only [computeBestSell]
      split_ifs with hbp ht
      · simp [hbp]
      · simp only [Option.some.injEq]
        constructor
        · intro _
          exact Or.inr (Or.inl fun u hu => hu ▸ ht)
        · intro _
          trivial
      · rw [bestFromAfter.eq_def]
        constructor
        · intro hnone
          refine Or.inr (Or.inr ⟨t, rfl, ?_⟩)
          revert hnone
          cases candles.filter (fun c => t ≤ c.timestamp) with
          | nil => intro _; rfl
          | cons c rest => intro hnone; exact Option.noConfusion hnone
        · rintro (h1 | h2 | ⟨u, hu, hfil⟩)
          · exact absurd (h1 bp rfl) hbp
          · exact absurd (h2 t rfl) (lt_of_not_le ht).not_le
          · obtain rfl : u = t := by
              injection hu with h2
              exact h2.symm
            rw [hfil]

/-- The running maximum never decreases through the reduce. -/
theorem reduceBest_high_le (b : Candle) (l : List Candle) :
    b.high ≤ (reduceBest b l).high := by
  induction l generalizing b with
  | nil => exact le_refl _
  | cons c cs ih =>
    rw [reduceBest]
    by_cases hbc : b.high < c.high
    · rw [if_pos hbc]
      exact le_of_lt (lt_of_lt_of_le hbc (ih c))
    · rw [if_neg hbc]
      exact ih b

/-- `reduceBest` returns the first occurrence (in scan order) of the
maximum high: the input splits around the result, everything before it has
a strictly smaller high, everything after it a smaller-or-equal high. -/
theorem reduceBest_first_max (b : Candle) (l : List Candle) :
    ∃ pre post, b :: l = pre ++ reduceBest b l :: post ∧
      (∀ c ∈ pre, c.high < (reduceBest b l).high) ∧
      (∀ c ∈ post, c.high ≤ (reduceBest b l).high) := by
  induction l generalizing b with
  | nil =>
    exact ⟨[], [], by simp [reduceBest], by simp, by simp⟩
  | cons c cs ih =>
    rw [reduceBest]
    by_cases hbc : b.high < c.high
    · rw [if_pos hbc]
      obtain ⟨pre, post, hsplit, hpre, hpost⟩ := ih c
      refine ⟨b :: pre, post, by rw [List.cons_append, ← hsplit], ?_, hpost⟩
      intro d hd
      rcases List.mem_cons.mp hd with rfl | hd2
      · exact lt_of_lt_of_le hbc (reduceBest_high_le c cs)
      · exact hpre d hd2
    · rw [if_neg hbc]
      obtain ⟨pre, post, hsplit, hpre, hpost⟩ := ih b
      cases pre with
      | nil =>
        simp only [List.nil_append] at hsplit
        injection hsplit with hb hcs
        refine ⟨[], c :: cs, ?_, by simp, ?_⟩
        · simp [← hb]
        · intro d hd
          rcases List.mem_cons.mp hd with rfl | hd2
          · exact le_of_not_lt (hb ▸ hbc)
          · rw [hcs] at hd2
            exact hpost d hd2
      | cons q pre2 =>
        have hq : q = b := by
          rw [List.cons_append] at hsplit
          injection hsplit with h1 h2
          exact h1.symm
        have hcs : cs = pre2 ++ reduceBest b cs :: post := by
          rw [List.cons_append] at hsplit
          injection hsplit
        have hbmem : b.high < (reduceBest b cs).high := by
          have := hpre q (List.mem_cons_self q pre2)
          rwa [hq] at this
        refine ⟨b :: c :: pre2, post, ?_, ?_, hpost⟩
        · simp only [List.cons_append]
          rw [← hcs]
        · intro d hd
          rcases List.mem_cons.mp hd with rfl | hd2
          · exact hbmem
          · rcases List.mem_cons.mp hd2 with rfl | hd3
            · exact lt_of_le_of_lt (le_of_not_lt hbc) hbmem
            · exact hpre d (List.mem_cons_of_mem q hd3)

/-- Claim C1 (amended: the purchase instant must be positive, since the
source also returns the absent result for `boughtAtUnixSeconds <= 0`):
for a finite buy price > 0, a purchase instant `t > 0` and a candle list
with at least one candle at or after `t`, `computeBestSell` returns the
first candle (in scan order — chronological order for the sorted lists the
fetcher produces) achieving the maximum high among the candles at or after
`t`, with `bestSellPrice` that candle's high and `bestPlPercent` exactly
`(high - buyPrice) / buyPrice * 100`; for a chronologically sorted input,
that candle is moreover the chronologically earliest one achieving the
maximum. -/
theorem computeBestSell_earliest_max (bp : ℚ) (t : Int) (candles : List Candle)
    (hbp : 0 < bp) (ht : 0 < t)
    (hne : candles.filter (fun c => t ≤ c.timestamp) ≠ []) :
    ∃ pre best post,
      candles.filter (fun c => t ≤ c.timestamp) = pre ++ best :: post ∧
      (∀ c ∈ pre, c.high < best.high) ∧
      (∀ c ∈ post, c.high ≤ best.high) ∧
      computeBestSell (some bp) (some t) candles =
        some ⟨best.timestamp, best.high, (best.high - bp) / bp * 100⟩ ∧
      (List.Pairwise (fun a b => a.timestamp ≤ b.timestamp) candles →
        ∀ c ∈ candles.filter (fun c => t ≤ c.timestamp),
          best.high ≤ c.high → best.timestamp ≤ c.timestamp) := by
  rcases hfil : candles.filter (fun c => t ≤ c.timestamp) with _ | ⟨a, rest⟩
  · exact absurd hfil hne
  obtain ⟨pre, post, hsplit, hpre, hpost⟩ := reduceBest_first_max a rest
  refine ⟨pre, reduceBest a rest, post, hfil.trans hsplit, hpre, hpost, ?_, ?_⟩
  · rw [computeBestSell, if_neg (not_le.mpr hbp), if_neg (not_le.mpr ht),
      hfil, bestFromAfter]
  · intro hsorted c hc hhigh
    have hfilsorted :
        List.Pairwise (fun a b => a.timestamp ≤ b.timestamp)
          (candles.filter (fun c => t ≤ c.timestamp)) :=
      hsorted.sublist (List.filter_sublist candles)
    rw [hfil, hsplit] at hfilsorted hc
    rcases List.mem_append.mp hc with hcpre | hcrest
    · exact absurd (hpre c hcpre) (not_lt.mpr hhigh)
    · rcases List.mem_cons.mp hcrest with rfl | hcpost
      · exact le_refl _
      · have := (List.pairwise_append.mp hfilsorted).2.1
        exact (List.pairwise_cons.mp this).1 c hcpost

/-- Claim C1 witness: the spec's own scenario — candles
`[(100, 2), (160, 5), (220, 3)]`, buy price 1, purchase instant 100 — has
its best exit at the candle `(160, 5)` with a 400% return. -/
theorem computeBestSell_earliest_max_witness :
    ∃ pre best post,
      ([⟨100, 2⟩, ⟨160, 5⟩, ⟨220, 3⟩] : List Candle).filter
          (fun c => 100 ≤ c.timestamp) = pre ++ best :: post ∧
      (∀ c ∈ pre, c.high < best.high) ∧
      (∀ c ∈ post, c.high ≤ best.high) ∧
      computeBestSell (some 1) (some 100) [⟨100, 2⟩, ⟨160, 5⟩, ⟨220, 3⟩] =
        some ⟨best.timestamp, best.high, (best.high - 1) / 1 * 100⟩ ∧
      (List.Pairwise (fun a b => a.timestamp ≤ b.timestamp)
          ([⟨100, 2⟩, ⟨160, 5⟩, ⟨220, 3⟩] : List Candle) →
        ∀ c ∈ ([⟨100, 2⟩, ⟨160, 5⟩, ⟨220, 3⟩] : List Candle).filter
            (fun c => 100 ≤ c.timestamp),
          best.high ≤ c.high → best.timestamp ≤ c.timestamp) :=
  computeBestSell_earliest_max 1 100 [⟨100, 2⟩, ⟨160, 5⟩, ⟨220, 3⟩]
    one_pos (by norm_num) (by simp)

/-- Claim C1 counterexample: the claim as stated quantifies over *every*
`boughtAt`; but for a `boughtAt` parsing to the epoch instant 0 (e.g.
`1970-01-01T00:00:00Z`), buy price 1 and the single candle `(5, 2)` —
whose timestamp 5 is at or after the purchase instant 0 — the source
returns the all-absent result rather than the populated best-exit triple,
because of its additional `boughtAtUnixSeconds <= 0` guard. -/
theorem computeBestSell_epoch_instant_counterexample :
    (0 : ℚ) < 1 ∧ ((0 : Int) ≤ 5 ∧
      computeBestSell (some 1) (some 0) [⟨5, 2⟩] = none) :=
  ⟨one_pos, by norm_num, rfl⟩

/-- `Map.set` and key lookup: after inserting `c`, looking up `c`'s
timestamp finds `c`, and any other timestamp is found as before. -/
theorem findTs_insertCandle (m : List Candle) (c : Candle) (t : Int) :
    findTs (insertCandle m c) t =
      if c.timestamp = t then some c else findTs m t := by
  induction m with
  | nil =>
    rw [insertCandle, findTs, findTs]
    simp only [List.find?]
    by_cases hct : c.timestamp = t
    · simp [hct]
    · rw [(by simp [hct] : (c.timestamp == t) = false), if_neg hct]
  | cons x xs ih =>
    rw [insertCandle]
    by_cases hxc : x.timestamp = c.timestamp
    · rw [if_pos (by simpa using hxc)]
      by_cases hct : c.timestamp = t
      · rw [if_pos hct, findTs]
        simp [hct]
      · rw [if_neg hct, findTs, findTs]
        simp only [List.find?]
        have hxt : (x.timestamp == t) = false := by
          simp [hxc, hct]
        have hctb : (c.timestamp == t) = false := by simp [hct]
        rw [hctb, hxt]
    · rw [if_neg (by simpa using hxc)]
      by_cases hxt : x.timestamp = t
      · have hct : ¬c.timestamp = t := fun hc => hxc (hxt ▸ hc ▸ rfl)
        rw [if_neg hct, findTs, findTs]
        simp only [List.find?]
        rw [(by simp [hxt] : (x.timestamp == t) = true)]
      · rw [findTs, findTs]
        simp only [List.find?]
        rw [(by simp [hxt] : (x.timestamp == t) = false)]
        exact ih

/-- Timestamps present after a `Map.set`. -/
theorem mem_map_timestamp_insertCandle (m : List Candle) (c : Candle)
    (u : Int) :
    u ∈ (insertCandle m c).map Candle.timestamp ↔
      u ∈ m.map Candle.timestamp ∨ u = c.timestamp := by
  induction m with
  | nil => simp [insertCandle]
  | cons x xs ih =>
    rw [insertCandle]
    by_cases hxc : x.timestamp = c.timestamp
    · rw [if_pos (by simpa using hxc)]
      simp only [List.map_cons, List.mem_cons, hxc]
      tauto
    · rw [if_neg (by simpa using hxc)]
      simp only [List.map_cons, List.mem_cons, ih]
      tauto

/-- `Map.set` keeps the keys pairwise distinct. -/
theorem nodup_map_timestamp_insertCandle (m : List Candle) (c : Candle)
    (hm : (m.map Candle.timestamp).Nodup) :
    ((insertCandle m c).map Candle.timestamp).Nodup := by
  induction m with
  | nil => simp [insertCandle]
  | cons x xs ih =>
    rw [insertCandle]
    rw [List.map_cons, List.nodup_cons] at hm
    by_cases hxc : x.timestamp = c.timestamp
    · rw [if_pos (by simpa using hxc)]
      rw [List.map_cons, List.nodup_cons]
      exact ⟨hxc ▸ hm.1, hm.2⟩
    · rw [if_neg (by simpa using hxc)]
      rw [List.map_cons, List.nodup_cons]
      refine ⟨?_, ih hm.2⟩
      rw [mem_map_timestamp_insertCandle]
      rintro (hmem | heq)
      · exact hm.1 hmem
      · exact hxc heq

/-- Keys stay pairwise distinct through the whole map construction. -/
theorem nodup_map_timestamp_foldl (L : List Candle) :
    ∀ m : List Candle, (m.map Candle.timestamp).Nodup →
      ((L.foldl insertCandle m).map Candle.timestamp).Nodup := by
  induction L with
  | nil => intro m hm; simpa using hm
  | cons c L2 ih =>
    intro m hm
    exact ih _ (nodup_map_timestamp_insertCandle m c hm)

/-- Peeling one collected candle off the last-wins lookup. -/
theorem lastWithTs_cons (c : Candle) (L : List Candle) (t : Int) :
    lastWithTs (c :: L) t =
      match lastWithTs L t with
      | some d => some d
      | none => if c.timestamp = t then some c else none := by
  rw [lastWithTs, lastWithTs, List.filter_cons]
  by_cases hct : c.timestamp = t
  · rw [if_pos (by simpa using hct), List.getLast?_cons]
    rcases hl : (L.filter fun d => d.timestamp == t).getLast? with _ | d
    · simp [hl, hct]
    · simp [hl]
  · rw [if_neg (by simpa using hct)]
    rcases hl : (L.filter fun d => d.timestamp == t).getLast? with _ | d
    · rw [hl]
      exact (if_neg hct).symm
    · rw [hl]

/-- Lookup in the finished map: the last collected candle with the looked-up
timestamp wins; keys never collected fall back to the initial map. -/
theorem findTs_foldl_insertCandle (L : List Candle) :
    ∀ (m : List Candle) (t : Int),
      findTs (L.foldl insertCandle m) t =
        match lastWithTs L t with
        | some d => some d
        | none => findTs m t := by
  induction L with
  | nil => intro m t; simp [lastWithTs, findTs]
  | cons c L2 ih =>
    intro m t
    rw [List.foldl_cons, ih, lastWithTs_cons]
    rcases hl : lastWithTs L2 t with _ | d
    · rw [findTs_insertCandle]
      by_cases hct : c.timestamp = t
      · simp only [if_pos hct]
      · simp only [if_neg hct]
    · rfl

/-- In a list with pairwise-distinct timestamps, membership is the same as
being the value found at one's own timestamp. -/
theorem mem_iff_findTs (m : List Candle) (c : Candle)
    (hm : (m.map Candle.timestamp).Nodup) :
    c ∈ m ↔ findTs m c.timestamp = some c := by
  constructor
  · intro hmem
    induction m with
    | nil => cases hmem
    | cons x xs ih =>
      rw [List.map_cons, List.nodup_cons] at hm
      rcases List.mem_cons.mp hmem with rfl | hmem2
      · rw [findTs]
        simp [List.find?]
      · have hxc : x.timestamp ≠ c.timestamp := by
          intro heq
          exact hm.1 (heq ▸ List.mem_map_of_mem Candle.timestamp hmem2)
        rw [findTs]
        simp only [List.find?]
        rw [(by simp [hxc] : (x.timestamp == c.timestamp) = false)]
        exact ih hm.2 hmem2
  · intro hfind
    exact List.mem_of_find?_eq_some hfind

/-- The dedup step keeps, for each timestamp, exactly the last collected
candle with that timestamp. -/
theorem mem_dedupByTimestamp (L : List Candle) (c : Candle) :
    c ∈ dedupByTimestamp L ↔ lastWithTs L c.timestamp = some c := by
  have hnodup : ((dedupByTimestamp L).map Candle.timestamp).Nodup :=
    nodup_map_timestamp_foldl L [] (by simp)
  rw [dedupByTimestamp] at hnodup ⊢
  rw [mem_iff_findTs _ c hnodup, findTs_foldl_insertCandle]
  rcases hl : lastWithTs L c.timestamp with _ | d
  · simp [findTs, List.find?]
  · rfl

/-- Timestamps in the dedup output are pairwise distinct, as a `Pairwise`
statement on the candle list itself. -/
theorem pairwise_ne_dedupByTimestamp (L : List Candle) :
    List.Pairwise (fun a b : Candle => a.timestamp ≠ b.timestamp)
      (dedupByTimestamp L) := by
  have hnodup : ((dedupByTimestamp L).map Candle.timestamp).Nodup :=
    nodup_map_timestamp_foldl L [] (by simp)
  exact List.pairwise_map.mp hnodup

/-- Sorting does not change membership. -/
theorem mem_sortByTimestamp (cs : List Candle) (c : Candle) :
    c ∈ sortByTimestamp cs ↔ c ∈ cs :=
  (List.perm_insertionSort _ cs).mem_iff

/-- The final dedup-and-sort output contains exactly, for each collected
timestamp, the last collected candle with that timestamp. -/
theorem mem_dedupSort (L : List Candle) (c : Candle) :
    c ∈ dedupSort L ↔ lastWithTs L c.timestamp = some c := by
  rw [dedupSort, mem_sortByTimestamp, mem_dedupByTimestamp]

/-- The final dedup-and-sort output is strictly ascending by timestamp (in
particular it contains no duplicate timestamps). -/
theorem pairwise_lt_dedupSort (L : List Candle) :
    List.Pairwise (fun a b : Candle => a.timestamp < b.timestamp)
      (dedupSort L) := by
  have hsorted :
      List.Pairwise (fun a b : Candle => a.timestamp ≤ b.timestamp)
        (sortByTimestamp (dedupByTimestamp L)) := by
    haveI : IsTotal Candle (fun a b : Candle => a.timestamp ≤ b.timestamp) :=
      ⟨fun a b => le_total a.timestamp b.timestamp⟩
    haveI : IsTrans Candle (fun a b : Candle => a.timestamp ≤ b.timestamp) :=
      ⟨fun _ _ _ hab hbc => le_trans hab hbc⟩
    exact List.sorted_insertionSort _ _
  have hne :
      List.Pairwise (fun a b : Candle => a.timestamp ≠ b.timestamp)
        (sortByTimestamp (dedupByTimestamp L)) := by
    refine ((List.perm_insertionSort _ _).pairwise_iff ?_).mpr
      (pairwise_ne_dedupByTimestamp L)
    intro a b hab
    exact fun heq => hab heq.symm
  rw [dedupSort]
  exact (hsorted.and hne).imp fun hab => lt_of_le_of_ne hab.1 hab.2

/-- Claim C4: for every upstream page sequence (page overlap included),
`fetchAllMinuteCandles` returns a list that is strictly ascending by
timestamp — hence free of duplicate timestamps — and whose entry at each
timestamp is the *last* candle collected with that timestamp, i.e. the
later-fetched value wins across overlapping pages. -/
theorem fetchAllMinuteCandles_sorted_dedup_lastWins
    (oracle : Nat → Option Int → List RawRow) (stop : Option Int) :
    List.Pairwise (fun a b : Candle => a.timestamp < b.timestamp)
      (fetchAllMinuteCandles oracle stop) ∧
    ∀ c : Candle, c ∈ fetchAllMinuteCandles oracle stop ↔
      lastWithTs (collectedCandles oracle stop) c.timestamp = some c := by
  constructor
  · exact pairwise_lt_dedupSort _
  · intro c
    exact mem_dedupSort _ c

/-- The running minimum of the fold never exceeds its seed. -/
theorem foldl_min_le_init (cs : List Candle) :
    ∀ a : Int, cs.foldl (fun m x => min m x.timestamp) a ≤ a := by
  induction cs with
  | nil => intro a; exact le_refl a
  | cons x xs ih =>
    intro a
    exact le_trans (ih (min a x.timestamp)) (min_le_left _ _)

/-- If every candle of a non-empty page is older than `u`, so is the page's
oldest timestamp. -/
theorem minTs_lt_of_forall_lt (pcs : List Candle) (u : Int)
    (hne : pcs ≠ []) (hall : ∀ c ∈ pcs, c.timestamp < u) : minTs pcs < u := by
  cases pcs with
  | nil => exact absurd rfl hne
  | cons c cs =>
    rw [minTs]
    exact lt_of_le_of_lt (foldl_min_le_init cs c.timestamp)
      (hall c (List.mem_cons_self c cs))

/-- Once the no-early-exit loop is running below a cursor, every candle it
still collects — under an upstream that honours the `before_timestamp`
cursor — is older than that cursor. -/
theorem fetchGoNoStop_extra_lt (oracle : Nat → Option Int → List RawRow)
    (honors : ∀ n u, ∀ c ∈ parsePage (oracle n (some u)), c.timestamp < u) :
    ∀ (fuel n : Nat) (u : Int) (acc : List Candle),
      ∃ extra, (fetchGoNoStop oracle fuel n (some u) acc).1 = acc ++ extra ∧
        ∀ c ∈ extra, c.timestamp < u := by
  intro fuel
  induction fuel with
  | zero =>
    intro n u acc
    exact ⟨[], by simp [fetchGoNoStop], by simp⟩
  | succ f ih =>
    intro n u acc
    rw [fetchGoNoStop]
    by_cases hrows : (oracle n (some u)).isEmpty
    · rw [if_pos hrows]
      exact ⟨[], by simp, by simp⟩
    · rw [if_neg hrows]
      by_cases hpc : (parsePage (oracle n (some u))).isEmpty
      · rw [if_pos hpc]
        exact ⟨parsePage (oracle n (some u)), rfl, honors n u⟩
      · rw [if_neg hpc]
        by_cases hlen : (oracle n (some u)).length < 1000
        · rw [if_pos hlen]
          exact ⟨parsePage (oracle n (some u)), rfl, honors n u⟩
        · rw [if_neg hlen]
          have hmin : minTs (parsePage (oracle n (some u))) - 60 < u := by
            have := minTs_lt_of_forall_lt (parsePage (oracle n (some u))) u
              (by simpa [List.isEmpty_iff] using hpc) (honors n u)
            omega
          obtain ⟨extra, heq, hlt⟩ := ih (n + 1)
            (minTs (parsePage (oracle n (some u))) - 60)
            (acc ++ parsePage (oracle n (some u)))
          refine ⟨parsePage (oracle n (some u)) ++ extra, ?_, ?_⟩
          · dsimp only
            rw [heq, List.append_assoc]
          · intro c hc
            rcases List.mem_append.mp hc with hc1 | hc2
            · exact honors n u c hc1
            · exact lt_trans (hlt c hc2) hmin

/-- Against a cursor-honouring upstream, the no-early-exit loop collects
exactly what the early-exit loop collects plus a tail of candles that are
all strictly older than the `stopBeforeTimestamp` floor `s`. -/
theorem fetchGoNoStop_eq_fetchGo_append (oracle : Nat → Option Int → List RawRow)
    (s : Int)
    (honors : ∀ n u, ∀ c ∈ parsePage (oracle n (some u)), c.timestamp < u) :
    ∀ (fuel n : Nat) (cursor : Option Int) (acc : List Candle),
      ∃ extra,
        (fetchGoNoStop oracle fuel n cursor acc).1 =
          (fetchGo oracle (some s) fuel n cursor acc).1 ++ extra ∧
        ∀ c ∈ extra, c.timestamp < s := by
  intro fuel
  induction fuel with
  | zero =>
    intro n cursor acc
    exact ⟨[], by simp [fetchGoNoStop, fetchGo], by simp⟩
  | succ f ih =>
    intro n cursor acc
    rw [fetchGoNoStop, fetchGo]
    by_cases hrows : (oracle n cursor).isEmpty
    · rw [if_pos hrows, if_pos hrows]
      exact ⟨[], by simp, by simp⟩
    · rw [if_neg hrows, if_neg hrows]
      by_cases hpc : (parsePage (oracle n cursor)).isEmpty
      · rw [if_pos hpc, if_pos hpc]
        exact ⟨[], by simp, by simp⟩
      · rw [if_neg hpc, if_neg hpc]
        dsimp only
        by_cases hlen : (oracle n cursor).length < 1000
        · rw [if_pos hlen]
          by_cases hstop : minTs (parsePage (oracle n cursor)) ≤ s
          · rw [if_pos (decide_eq_true hstop)]
            exact ⟨[], by simp, by simp⟩
          · rw [if_neg (by simp [hstop]), if_pos hlen]
            exact ⟨[], by simp, by simp⟩
        · rw [if_neg hlen]
          by_cases hstop : minTs (parsePage (oracle n cursor)) ≤ s
          · rw [if_pos (decide_eq_true hstop)]
            obtain ⟨extra, heq, hlt⟩ := fetchGoNoStop_extra_lt oracle honors
              f (n + 1) (minTs (parsePage (oracle n cursor)) - 60)
              (acc ++ parsePage (oracle n cursor))
            refine ⟨extra, ?_, fun c hc => lt_of_lt_of_le (hlt c hc) (by omega)⟩
            dsimp only
            rw [heq]
          · rw [if_neg (by simp [hstop]), if_neg hlen]
            obtain ⟨extra, heq, hlt⟩ := ih (n + 1)
              (some (minTs (parsePage (oracle n cursor)) - 60))
              (acc ++ parsePage (oracle n cursor))
            exact ⟨extra, by dsimp only; rw [heq], hlt⟩

/-- Appending candles that never carry the looked-up timestamp does not
change the last-wins lookup. -/
theorem lastWithTs_append_of_no_match (L E : List Candle) (t : Int)
    (hE : ∀ c ∈ E, c.timestamp ≠ t) :
    lastWithTs (L ++ E) t = lastWithTs L t := by
  have hfe : E.filter (fun c => c.timestamp == t) = [] := by
    rw [List.filter_eq_nil]
    intro c hc
    simpa using hE c hc
  rw [lastWithTs, lastWithTs, List.filter_append, hfe, List.append_nil]

/-- Two strictly-ascending candle lists with the same members are equal. -/
theorem eq_of_pairwise_lt_of_mem_iff :
    ∀ l₁ l₂ : List Candle,
      List.Pairwise (fun a b : Candle => a.timestamp < b.timestamp) l₁ →
      List.Pairwise (fun a b : Candle => a.timestamp < b.timestamp) l₂ →
      (∀ c, c ∈ l₁ ↔ c ∈ l₂) → l₁ = l₂ := by
  intro l₁
  induction l₁ with
  | nil =>
    intro l₂ _ _ hmem
    cases l₂ with
    | nil => rfl
    | cons b t₂ => exact absurd ((hmem b).mpr (List.mem_cons_self b t₂)) (by simp)
  | cons a t₁ ih =>
    intro l₂ h₁ h₂ hmem
    cases l₂ with
    | nil => exact absurd ((hmem a).mp (List.mem_cons_self a t₁)) (by simp)
    | cons b t₂ =>
      rw [List.pairwise_cons] at h₁ h₂
      have hab : a = b := by
        rcases List.mem_cons.mp ((hmem a).mp (List.mem_cons_self a t₁)) with
          hab2 | ha2
        · exact hab2
        · rcases List.mem_cons.mp ((hmem b).mpr (List.mem_cons_self b t₂)) with
            hba | hb2
          · exact hba.symm
          · exact absurd (h₁.1 b hb2) (lt_asymm (h₂.1 a ha2))
      subst hab
      have htails : ∀ c, c ∈ t₁ ↔ c ∈ t₂ := by
        intro c
        constructor
        · intro hc
          rcases List.mem_cons.mp ((hmem c).mp (List.mem_cons_of_mem a hc)) with
            hca | hc2
          · exact absurd (hca ▸ h₁.1 c hc) (lt_irrefl _)
          · exact hc2
        · intro hc
          rcases List.mem_cons.mp ((hmem c).mpr (List.mem_cons_of_mem a hc)) with
            hca | hc2
          · exact absurd (hca ▸ h₂.1 c hc) (lt_irrefl _)
          · exact hc2
      rw [ih t₂ h₁.2 h₂.2 htails]

/-- `computeBestSell` only looks at the candles at or after the purchase
instant: inputs with equal filtered views yield equal results. -/
theorem computeBestSell_congr_filter (bp : Option ℚ) (s : Int)
    (l₁ l₂ : List Candle)
    (hf : l₁.filter (fun c => s ≤ c.timestamp)
        = l₂.filter (fun c => s ≤ c.timestamp)) :
    computeBestSell bp (some s) l₁ = computeBestSell bp (some s) l₂ := by
  cases bp with
  | none => rfl
  | some b => simp only [computeBestSell, hf]

/-- Claim C8: the `stopBeforeTimestamp` early exit is an optimization only.
Against any upstream that honours the `before_timestamp` cursor (every
candle of a cursor-carrying page is strictly older than that cursor), the
best-exit result computed from the candles fetched with the early exit at
the purchase instant `s` equals the result computed from the candles the
no-early-exit variant fetches: the downstream filter on
`timestamp ≥ s` discards exactly the extra, older candles. -/
theorem stopBeforeTimestamp_early_exit_refinement
    (oracle : Nat → Option Int → List RawRow) (s : Int) (bp : Option ℚ)
    (honors : ∀ n u, ∀ c ∈ parsePage (oracle n (some u)), c.timestamp < u) :
    computeBestSell bp (some s) (fetchAllMinuteCandles oracle (some s)) =
      computeBestSell bp (some s) (fetchAllMinuteCandlesNoStop oracle) := by
  obtain ⟨extra, heq, hlt⟩ :=
    fetchGoNoStop_eq_fetchGo_append oracle s honors 100 0 none []
  rw [fetchAllMinuteCandles, fetchAllMinuteCandlesNoStop, collectedCandles,
    heq]
  apply computeBestSell_congr_filter
  apply eq_of_pairwise_lt_of_mem_iff
  · exact (pairwise_lt_dedupSort _).sublist (List.filter_sublist _)
  · exact (pairwise_lt_dedupSort _).sublist (List.filter_sublist _)
  · intro c
    simp only [List.mem_filter, mem_dedupSort, decide_eq_true_eq]
    constructor
    · rintro ⟨hmemA, hts⟩
      have hno : ∀ e ∈ extra, e.timestamp ≠ c.timestamp :=
        fun e he => ne_of_lt (lt_of_lt_of_le (hlt e he) hts)
      exact ⟨by rw [lastWithTs_append_of_no_match _ _ _ hno]; exact hmemA, hts⟩
    · rintro ⟨hmemB, hts⟩
      have hno : ∀ e ∈ extra, e.timestamp ≠ c.timestamp :=
        fun e he => ne_of_lt (lt_of_lt_of_le (hlt e he) hts)
      rw [lastWithTs_append_of_no_match _ _ _ hno] at hmemB
      exact ⟨hmemB, hts⟩

/-- Claim C8 witness: a tiny honouring upstream — one page of two candles
on the cursorless first request, nothing afterwards — yields the same
best-exit result through both fetch variants. -/
theorem stopBeforeTimestamp_early_exit_refinement_witness :
    let oracle : Nat → Option Int → List RawRow := fun _ cursor =>
      match cursor with
      | none => [⟨some 120, some 2⟩, ⟨some 60, some 1⟩]
      | some _ => []
    computeBestSell (some 1) (some 100) (fetchAllMinuteCandles oracle (some 100))
      = computeBestSell (some 1) (some 100) (fetchAllMinuteCandlesNoStop oracle) := by
  intro oracle
  exact stopBeforeTimestamp_early_exit_refinement oracle 100 (some 1)
    (fun n u c hc => absurd hc (by simp [oracle, parsePage]))
